import Mathlib

/-!
# Verification of the FRANZ automation agent core (`main.py`)

This file gives a shallow embedding of the command-interpretation layer,
the action model, and the motion/typing actuator of the agent, and proves
or refutes the frozen specification claims about them.

Conventions of the embedding:
* Python strings are modelled as `List Char`; only the ASCII fragment of
  Python's `\s`, `\w`, `\d` character classes and of `str.strip`,
  `str.splitlines` is modelled (every string the program manipulates in the
  claims is ASCII apart from typed text, which is never split on these
  classes in a way that matters).
* Python machine floats in coordinate arithmetic are modelled as exact
  rationals; `int(...)` is truncation toward zero (`truncZ`).
* Regex scanning (`re.finditer`, `re.search`, `re.sub`, `re.findall`) is
  modelled by explicit left-to-right scanning functions that mirror the
  concrete patterns appearing in `main.py`.
-/

/-- ASCII fragment of Python whitespace (`\s`, `str.strip`). -/
def isPyWs (c : Char) : Bool :=
  c = ' ' || c = '\t' || c = '\n' || c = '\r' || c = '\x0b' || c = '\x0c'

/-- ASCII fragment of Python's regex word class `\w` (used for `\b`). -/
def isWordChar (c : Char) : Bool :=
  ('a' ≤ c && c ≤ 'z') || ('A' ≤ c && c ≤ 'Z') || ('0' ≤ c && c ≤ '9') || c = '_'

/-- The backtick character (written via its code so that the source text
contains no stray backtick). -/
def tick : Char := Char.ofNat 96

/-- `str.strip()` on the ASCII whitespace fragment. -/
def pyStrip (l : List Char) : List Char :=
  ((l.dropWhile isPyWs).reverse.dropWhile isPyWs).reverse

/-- Strip a literal prefix from a character list, returning the remainder. -/
def dropPre : List Char → List Char → Option (List Char)
  | [], l => some l
  | _ :: _, [] => none
  | p :: ps, c :: cs => if p = c then dropPre ps cs else none

/-- The characters of the five action names of `_FUNC_CALL_RE`. -/
def leftClickCs : List Char := ['l','e','f','t','_','c','l','i','c','k']

def rightClickCs : List Char := ['r','i','g','h','t','_','c','l','i','c','k']

def doubleLeftClickCs : List Char :=
  ['d','o','u','b','l','e','_','l','e','f','t','_','c','l','i','c','k']

def dragCs : List Char := ['d','r','a','g']

def typeCs : List Char := ['t','y','p','e']

/-- Try the alternation
`(left_click|right_click|double_left_click|drag|type)` at the head of `l`
(regex alternation order; the five names are pairwise prefix-incompatible,
so at most one can match). Returns the name and the remainder. -/
def matchCallAt (l : List Char) : Option (String × List Char) :=
  match dropPre leftClickCs l with
  | some r => some ("left_click", r)
  | none =>
  match dropPre rightClickCs l with
  | some r => some ("right_click", r)
  | none =>
  match dropPre doubleLeftClickCs l with
  | some r => some ("double_left_click", r)
  | none =>
  match dropPre dragCs l with
  | some r => some ("drag", r)
  | none =>
  match dropPre typeCs l with
  | some r => some ("type", r)
  | none => none

/-- Split a list at its first `)`: `splitParen l = some (a, b)` when
`l = a ++ ')' :: b` and `a` is `)`-free. Mirrors the greedy `([^)]*)\)`
part of `_FUNC_CALL_RE`. -/
def splitParen : List Char → Option (List Char × List Char)
  | [] => none
  | c :: cs =>
    if c = ')' then some ([], cs)
    else (splitParen cs).map (fun p => (c :: p.1, p.2))

/-- Try to match `_FUNC_CALL_RE`, i.e.
`\b(left_click|right_click|double_left_click|drag|type)\s*\(([^)]*)\)`,
anchored at the start of `l`. `prevW` tells whether the character
immediately before `l` is a word character (for `\b`; all five names start
with a word character, so the boundary holds iff `prevW = false`).
Returns the name, the second capture group, and the rest after `)`. -/
def matchCall (prevW : Bool) (l : List Char) : Option (String × List Char × List Char) :=
  if prevW then none else
  match matchCallAt l with
  | none => none
  | some (n, rest) =>
    match rest.dropWhile isPyWs with
    | [] => none
    | c :: rest2 =>
      if c = '(' then (splitParen rest2).map (fun p => (n, p.1, p.2)) else none

/-- Fueled scan for all non-overlapping matches of `_FUNC_CALL_RE`, left to
right, continuing after the end of each match (`re.finditer`). -/
def findCallsF : Nat → Bool → List Char → List (String × List Char)
  | 0, _, _ => []
  | _ + 1, _, [] => []
  | fuel + 1, prevW, c :: cs =>
    match matchCall prevW (c :: cs) with
    | some (n, g2, rest) => (n, g2) :: findCallsF fuel false rest
    | none => findCallsF fuel (isWordChar c) cs

/-- All matches of `_FUNC_CALL_RE` in `l` (as `(name, group 2)` pairs). -/
def findCalls (prevW : Bool) (l : List Char) : List (String × List Char) :=
  findCallsF l.length prevW l

/-- Find the first occurrence of three consecutive backticks:
`findFence l = some (before, rest)` with `l = before ++ [tick,tick,tick] ++ rest`
and no occurrence starting inside `before`. -/
def findFence : List Char → Option (List Char × List Char)
  | [] => none
  | c :: cs =>
    if c = tick && cs.take 2 = [tick, tick] then
      some ([], cs.drop 2)
    else
      (findFence cs).map (fun p => (c :: p.1, p.2))

/-- Does `l` start with `python` case-insensitively (the `(?:python)?` tag
of the fence regex, compiled with `re.IGNORECASE`)? -/
def pythonTag (l : List Char) : Bool :=
  (l.take 6).map Char.toLower = ['p','y','t','h','o','n']

/-- Leftmost match of the fence regex
`` ```(?:python)?\s*(.*?)``` `` (DOTALL, IGNORECASE):
returns `(textBefore, group 1, textAfter)`.

Backtracking analysis: the pattern can only start at the first triple
backtick; the optional `python` tag and the greedy `\s*` consume no
backticks, so a closing fence exists after them iff one exists at all, and
the lazy group 1 ends at the next triple backtick. -/
def fenceExtract (content : List Char) : Option (List Char × List Char × List Char) :=
  match findFence content with
  | none => none
  | some (before, rest) =>
    let rest1 := if pythonTag rest then rest.drop 6 else rest
    let rest2 := rest1.dropWhile isPyWs
    match findFence rest2 with
    | none => none
    | some (g1, after) => some (before, g1, after)

/-- The action-search scope of `parse_response`: the first fenced code
block if present, else the whole content. -/
def scopeOf (content : List Char) : List Char :=
  match fenceExtract content with
  | some t => t.2.1
  | none => content

/-- Numeric value of a list of ASCII digits. -/
def natVal (l : List Char) : Nat :=
  l.foldl (fun a c => 10 * a + (c.toNat - 48)) 0

/-- Fueled scan for all matches of `-?\d+` (`re.findall`), each converted
with Python `int(...)`. An isolated `-` (not followed by a digit) matches
nothing and scanning resumes at the next character. -/
def findIntsF : Nat → List Char → List Int
  | 0, _ => []
  | _ + 1, [] => []
  | fuel + 1, c :: cs =>
    if c.isDigit then
      (natVal ((c :: cs).takeWhile Char.isDigit) : Int) ::
        findIntsF fuel ((c :: cs).dropWhile Char.isDigit)
    else if c = '-' then
      match cs with
      | [] => []
      | d :: _ =>
        if d.isDigit then
          (-(natVal (cs.takeWhile Char.isDigit) : Int)) ::
            findIntsF fuel (cs.dropWhile Char.isDigit)
        else findIntsF fuel cs
    else findIntsF fuel cs

/-- `re.findall(r"-?\d+", l)`, values via `int`. -/
def findInts (l : List Char) : List Int :=
  findIntsF l.length l

/-- A Python value appearing in a parsed parameter list: an `int` or a `str`. -/
inductive PyVal where
  | i (n : Int)
  | s (t : List Char)
deriving DecidableEq, Repr

/-- Is `t` wrapped in a layer of double quotes or a layer of single quotes
(`startswith`/`endswith` check of `_parse_args`)? On the empty list both
checks fail, as in Python. -/
def quoteWrapped (t : List Char) : Bool :=
  (t.head? = some '"' && t.getLast? = some '"') ||
    (t.head? = some '\'' && t.getLast? = some '\'')

/-- `_parse_args(func_name, raw_args)` from `main.py`. -/
def parse_args (func_name : String) (raw_args : List Char) : Option (List PyVal) :=
  if func_name = "type" then
    let text := pyStrip raw_args
    let text2 := if quoteWrapped text then (text.drop 1).dropLast else text
    if text2 = [] then none else some [PyVal.s text2]
  else
    let nums := findInts raw_args
    if (func_name = "left_click" ∨ func_name = "right_click" ∨
        func_name = "double_left_click") ∧ 2 ≤ nums.length then
      some [PyVal.i (nums.getD 0 0), PyVal.i (nums.getD 1 0)]
    else if func_name = "drag" ∧ 4 ≤ nums.length then
      some [PyVal.i (nums.getD 0 0), PyVal.i (nums.getD 1 0),
            PyVal.i (nums.getD 2 0), PyVal.i (nums.getD 3 0)]
    else none

/-- `str.splitlines` on the `\n` / `\r\n` / `\r` separators (fueled): a
trailing terminator produces no trailing empty line. `acc` is the reversed
current line. -/
def splitLinesF : Nat → List Char → List Char → List (List Char)
  | 0, _, _ => []
  | fuel + 1, l, acc =>
    match l with
    | [] => if acc = [] then [] else [acc.reverse]
    | c :: cs =>
      if c = '\n' then acc.reverse :: splitLinesF fuel cs []
      else if c = '\r' then
        if cs.head? = some '\n' then acc.reverse :: splitLinesF fuel cs.tail []
        else acc.reverse :: splitLinesF fuel cs []
      else splitLinesF fuel cs (c :: acc)

def splitLines (l : List Char) : List (List Char) :=
  splitLinesF (l.length + 1) l []

/-- `sep.join(parts)`. -/
def joinSep (sep : Char) : List (List Char) → List Char
  | [] => []
  | [x] => x
  | x :: xs => x ++ sep :: joinSep sep xs

/-- The markdown-glyph class `[#*>\-]` of the story cleanup regex. -/
def isGlyph (c : Char) : Bool :=
  c = '#' || c = '*' || c = '>' || c = '-'

/-- Fueled model of `re.sub(r"^[#*>\-]+\s*", "", story, flags=re.MULTILINE)`:
scan left to right; at a line start (`atStart`), a maximal run of glyphs
followed by a maximal run of whitespace (which may cross newlines) is
deleted; scanning resumes after the deletion, where `^` holds iff the last
deleted character was a newline. -/
def mdScanF : Nat → Bool → List Char → List Char
  | 0, _, l => l
  | _ + 1, _, [] => []
  | fuel + 1, atStart, c :: cs =>
    if atStart && isGlyph c then
      let g := (c :: cs).dropWhile isGlyph
      let w := g.takeWhile isPyWs
      let rest := g.dropWhile isPyWs
      mdScanF fuel (w.getLast? = some '\n') rest
    else
      c :: mdScanF fuel (c = '\n') cs

/-- Run the markdown cleanup substitution on a whole string. -/
def mdScanRun (l : List Char) : List Char :=
  mdScanF l.length true l

/-- `parse_response(content)` from `main.py`: returns the command list and
the narrative story. -/
def parse_response (content : List Char) : List (String × List PyVal) × List Char :=
  let commands := (findCalls false (scopeOf content)).filterMap
    (fun m => (parse_args m.1 (pyStrip m.2)).map (fun ps => (m.1, ps)))
  let story :=
    match fenceExtract content with
    | some t =>
      let sb := pyStrip t.1
      let sa := pyStrip t.2.2
      let parts := (if sb = [] then [] else [sb]) ++ (if sa = [] then [] else [sa])
      pyStrip (joinSep '\n' parts)
    | none =>
      let keep := (splitLines content).filterMap (fun line =>
        let s := pyStrip line
        if s ≠ [] && findCalls false s = [] then some s else none)
      pyStrip (joinSep ' ' keep)
  (commands, pyStrip (mdScanRun story))

/-- Decimal digits of `n` (fueled; `fuel ≥ n` suffices, and the digit order
matches Python `str`). -/
def natCharsF : Nat → Nat → List Char
  | 0, _ => []
  | fuel + 1, n =>
    if n < 10 then [Char.ofNat (48 + n)]
    else natCharsF fuel (n / 10) ++ [Char.ofNat (48 + n % 10)]

def natChars (n : Nat) : List Char := natCharsF (n + 1) n

/-- Python `str` of an `int`. -/
def intStr (n : Int) : List Char :=
  if n < 0 then '-' :: natChars n.natAbs else natChars n.natAbs

/-- Python `str` of a `PyVal` (parameters are ints for the click family and
drag, and the raw text for `type`). -/
def pyValStr : PyVal → List Char
  | .i n => intStr n
  | .s t => t

/-- `_format_command(func_name, params)` from `main.py`. -/
def format_command (func_name : String) (params : List PyVal) : List Char :=
  if func_name = "type" then
    "type(\"".toList ++ pyValStr (params.headD (PyVal.s [])) ++ "\")".toList
  else
    func_name.toList ++ '(' :: joinSep ',' (params.map pyValStr) ++ [')']

/-- One story/last-action state update of the orchestrator loop in `main`:
if no command parsed, `last_action` becomes the `observe` sentinel, else the
formatted text of the last executed command; the story is replaced only by a
non-empty candidate. -/
def orchestratorStep (content : List Char) (story _lastAction : List Char) :
    List Char × List Char :=
  let r := parse_response content
  let last' :=
    match r.1.getLast? with
    | none => "observe".toList
    | some m => format_command m.1 m.2
  let story' := if r.2 = [] then story else r.2
  (story', last')

/-- Host input events emitted by the typing actuator (`keybd_event` calls
and `time.sleep` pauses, in order). -/
inductive TypeEvent where
  | keyDown (vk : ℕ)
  | keyUp (vk : ℕ)
  | pause (seconds : ℚ)
deriving DecidableEq, Repr

/-- `press_key(vk)`: key down, 20 ms, key up. -/
def pressKey (vk : ℕ) : List TypeEvent :=
  [TypeEvent.keyDown vk, TypeEvent.pause (2/100), TypeEvent.keyUp vk]

/-- The events `type_text` emits for one character. `layout` abstracts
`VkKeyScanW`: `none` models the `-1` failure, `some (vk, shift)` models a
successful translation split into its low byte and shift bit. -/
def charEvents (layout : Char → Option (ℕ × Bool)) (c : Char) : List TypeEvent :=
  if c = ' ' then pressKey 0x20 ++ [TypeEvent.pause (15/100)]
  else if c = '\n' then pressKey 0x0D ++ [TypeEvent.pause (15/100)]
  else
    (match layout c with
     | some (vk, shift) =>
       (if shift then [TypeEvent.keyDown 0x10, TypeEvent.pause (1/100)] else []) ++
         pressKey vk ++ (if shift then [TypeEvent.keyUp 0x10] else [])
     | none => []) ++ [TypeEvent.pause (8/100)]

/-- `type_text(text)`: the concatenated event trace. -/
def type_text (layout : Char → Option (ℕ × Bool)) : List Char → List TypeEvent
  | [] => []
  | c :: cs => charEvents layout c ++ type_text layout cs

/-- Is an event an emitted key event (as opposed to a pause)? -/
def TypeEvent.isKey : TypeEvent → Bool
  | .keyDown _ => true
  | .keyUp _ => true
  | .pause _ => false

/-! ## Supporting lemmas -/

/-- C1, counterexample. The claim asserts that the interpreter supports a
line-oriented keyword dialect, so that `"click 500 300\ntype \"hi there\""`
parses to the two actions `[Click(500,300), Type("hi there")]`. In fact
`parse_response` recognizes only the function-call dialect of
`_FUNC_CALL_RE`; on this input it produces no actions at all (in
particular not the claimed two-action sequence). -/
theorem claim_C1_counterexample :
    (parse_response "click 500 300\ntype \"hi there\"".toList).1 = [] ∧
      ([] : List (String × List PyVal)) ≠
        [("left_click", [PyVal.i 500, PyVal.i 300]),
         ("type", [PyVal.s "hi there".toList])] := by
  constructor
  · decide
  · decide

/-- C1, amended: the interpreter supports only the function-call dialect;
on the keyword-dialect input `"click 500 300\ntype \"hi there\""` it
returns no actions, and both lines (matching no function call) become the
space-joined narrative instead. -/
theorem claim_C1_amended :
    parse_response "click 500 300\ntype \"hi there\"".toList =
      ([], "click 500 300 type \"hi there\"".toList) := by
  decide

/-! ## C2: the all-or-nothing shape invariant -/

/-- C2, counterexample. The claim asserts every click-family coordinate
produced by `_parse_args` lies in `[0, 1000]`; but the numeric token regex
`-?\d+` accepts a leading minus and no range check is performed, so
`left_click(-5, 2000)` normalizes to the out-of-range pair `(-5, 2000)`. -/
theorem claim_C2_counterexample :
    parse_args "left_click" "-5, 2000".toList =
        some [PyVal.i (-5), PyVal.i 2000] ∧
      ¬((0 : ℤ) ≤ -5 ∧ (-5 : ℤ) ≤ 1000 ∧ (0 : ℤ) ≤ 2000 ∧ (2000 : ℤ) ≤ 1000) := by
  constructor
  · decide
  · decide

/-- C2, amended: every `Action` produced by argument normalization has the
all-or-nothing *shape* invariant — a click-family action carries exactly
two integers, a drag exactly four, and a type a non-empty text, and no
other name produces an action — but the integers are *not* constrained to
`[0, 1000]` (no range check exists). -/
theorem claim_C2_amended (name : String) (raw : List Char) (ps : List PyVal)
    (h : parse_args name raw = some ps) :
    (name = "type" ∧ ∃ t, t ≠ [] ∧ ps = [PyVal.s t]) ∨
      ((name = "left_click" ∨ name = "right_click" ∨
          name = "double_left_click") ∧ ∃ a b : ℤ, ps = [PyVal.i a, PyVal.i b]) ∨
      (name = "drag" ∧ ∃ a b c d : ℤ,
        ps = [PyVal.i a, PyVal.i b, PyVal.i c, PyVal.i d]) := by
  simp only [parse_args] at h
  split_ifs at h with h1 h2 h3 h4 h5 h6 <;>
    first
      | exact Or.inl ⟨h1, _, by assumption, (Option.some_inj.1 h).symm⟩
      | exact Or.inr (Or.inl ⟨h5.1, _, _, (Option.some_inj.1 h).symm⟩)
      | exact Or.inr (Or.inr ⟨h6.1, _, _, _, _, (Option.some_inj.1 h).symm⟩)

/-- Witness for C2 (amended) at a concrete input. -/
theorem claim_C2_amended_witness :
    parse_args "drag" "1,2,3,4".toList =
        some [PyVal.i 1, PyVal.i 2, PyVal.i 3, PyVal.i 4] ∧
      ((("drag" : String) = "type" ∧ ∃ t, t ≠ [] ∧
          [PyVal.i 1, PyVal.i 2, PyVal.i 3, PyVal.i 4] = [PyVal.s t]) ∨
        ((("drag" : String) = "left_click" ∨ ("drag" : String) = "right_click" ∨
            ("drag" : String) = "double_left_click") ∧ ∃ a b : ℤ,
          [PyVal.i 1, PyVal.i 2, PyVal.i 3, PyVal.i 4] = [PyVal.i a, PyVal.i b]) ∨
        (("drag" : String) = "drag" ∧ ∃ a b c d : ℤ,
          [PyVal.i 1, PyVal.i 2, PyVal.i 3, PyVal.i 4] =
            [PyVal.i a, PyVal.i b, PyVal.i c, PyVal.i d])) := by
  refine ⟨by decide, ?_⟩
  exact claim_C2_amended "drag" "1,2,3,4".toList _ (by decide)

/-! ## C3: coordinate mapping -/

/-- C6, counterexample. The claim asserts that a type argument wrapped in
exactly one layer of matching quotes yields the text with the quotes
removed; for the argument `""` (one layer of matching double quotes around
empty text) normalization yields `None` instead of a type action carrying
the dequoted (empty) text. -/
theorem claim_C6_counterexample :
    parse_args "type" "\"\"".toList = none ∧
      (none : Option (List PyVal)) ≠ some [PyVal.s []] := by
  constructor
  · decide
  · decide

/-- C6, amended: if the (stripped) type argument is wrapped in a layer of
matching quote characters (the code's `startswith`/`endswith` check) and
the dequoted text is non-empty, normalization yields exactly the text with
those two quotes removed (never more than one layer); if the quotes are
unmatched, a non-empty argument is preserved verbatim. An empty dequoted
text yields `None` (a skip). -/
theorem claim_C6_amended (raw : List Char) :
    (quoteWrapped (pyStrip raw) = true → ((pyStrip raw).drop 1).dropLast ≠ [] →
      parse_args "type" raw = some [PyVal.s (((pyStrip raw).drop 1).dropLast)]) ∧
    (quoteWrapped (pyStrip raw) = false → pyStrip raw ≠ [] →
      parse_args "type" raw = some [PyVal.s (pyStrip raw)]) ∧
    (quoteWrapped (pyStrip raw) = true → ((pyStrip raw).drop 1).dropLast = [] →
      parse_args "type" raw = none) := by
  refine ⟨fun hq hne => ?_, fun hq hne => ?_, fun hq he => ?_⟩
  · rw [List.drop_one] at hne
    simp [parse_args, hq, hne]
  · simp [parse_args, hq, hne]
  · rw [List.drop_one] at he
    simp [parse_args, hq, he]

/-- Witness for C6 (amended) at concrete inputs. -/
theorem claim_C6_amended_witness :
    parse_args "type" "\"hi\"".toList = some [PyVal.s ['h', 'i']] ∧
      parse_args "type" "ab\"".toList = some [PyVal.s ['a', 'b', '"']] := by
  constructor
  · exact ((claim_C6_amended "\"hi\"".toList).1 (by decide) (by decide)).trans (by decide)
  · exact ((claim_C6_amended "ab\"".toList).2.1 (by decide) (by decide)).trans (by decide)

/-! ## C8: unmapped characters in the typing actuator -/

/-- C8: for every character that is not space/newline and whose layout
translation fails (`VkKeyScanW = -1`), `type_text` emits no key event for
that character but still sleeps the fixed 80 ms per-character delay; a
successful translation emits strictly more key events while ending in the
same 80 ms delay, so the event count decreases and the pacing is
preserved. -/
theorem claim_C8 (layout : Char → Option (ℕ × Bool)) (c : Char)
    (hs : c ≠ ' ') (hn : c ≠ '\n') (hmiss : layout c = none) :
    charEvents layout c = [TypeEvent.pause (8/100)] ∧
      (charEvents layout c).countP TypeEvent.isKey = 0 ∧
      ∀ (layout₂ : Char → Option (ℕ × Bool)) (vk : ℕ) (sh : Bool),
        layout₂ c = some (vk, sh) →
        (charEvents layout c).countP TypeEvent.isKey <
          (charEvents layout₂ c).countP TypeEvent.isKey ∧
        (charEvents layout₂ c).getLast? = some (TypeEvent.pause (8/100)) := by
  have h1 : charEvents layout c = [TypeEvent.pause (8/100)] := by
    simp [charEvents, hs, hn, hmiss]
  refine ⟨h1, by simp [h1, List.countP_cons, TypeEvent.isKey], ?_⟩
  intro layout₂ vk sh h2
  have h3 : charEvents layout₂ c =
      ((if sh then [TypeEvent.keyDown 0x10, TypeEvent.pause (1/100)] else []) ++
        pressKey vk ++ (if sh then [TypeEvent.keyUp 0x10] else [])) ++
        [TypeEvent.pause (8/100)] := by
    simp [charEvents, hs, hn, h2]
  constructor
  · rw [h1, h3]
    cases sh <;>
      simp [pressKey, List.countP_cons, List.countP_append, TypeEvent.isKey]
  · rw [h3, List.getLast?_concat]

/-- Witness for C8 at a concrete character and layouts. -/
theorem claim_C8_witness :
    charEvents (fun _ => none) '@' = [TypeEvent.pause (8/100)] ∧
      (charEvents (fun _ => some (50, true)) '@').countP TypeEvent.isKey > 0 := by
  have h := claim_C8 (fun _ => none) '@' (by decide) (by decide) rfl
  exact ⟨h.1, Nat.lt_of_le_of_lt (Nat.zero_le _)
    (h.2.2 (fun _ => some (50, true)) 50 true rfl).1⟩

/-! ## C7: empty responses and the observe sentinel -/

theorem findFence_eq_none {l : List Char} (h : ∀ c ∈ l, c ≠ tick) :
    findFence l = none := by
  induction l with
  | nil => rfl
  | cons c cs ih =>
    have hc : c ≠ tick := h c (List.mem_cons_self _ _)
    have h2 : findFence cs = none := ih (fun x hx => h x (List.mem_cons_of_mem _ hx))
    simp [findFence, hc, h2]

/-- A whitespace character heads none of the five action names. -/
theorem matchCallAt_ws {c : Char} (hc : isPyWs c = true) (cs : List Char) :
    matchCallAt (c :: cs) = none := by
  simp only [isPyWs, Bool.or_eq_true, decide_eq_true_eq] at hc
  rcases hc with ((((rfl | rfl) | rfl) | rfl) | rfl) | rfl <;> rfl

theorem findCallsF_ws :
    ∀ (fuel : ℕ) (b : Bool) (l : List Char), (∀ c ∈ l, isPyWs c = true) →
      findCallsF fuel b l = [] := by
  intro fuel
  induction fuel with
  | zero => intro b l _; rfl
  | succ fuel ih =>
    intro b l hl
    match l with
    | [] => rfl
    | c :: cs =>
      have hc : isPyWs c = true := hl c (List.mem_cons_self _ _)
      have hmc : matchCall b (c :: cs) = none := by
        rw [matchCall]
        split_ifs with hb
        · rfl
        · rw [matchCallAt_ws hc]
      rw [findCallsF, hmc]
      exact ih _ cs (fun x hx => hl x (List.mem_cons_of_mem _ hx))

theorem pyStrip_eq_nil {l : List Char} (h : ∀ c ∈ l, isPyWs c = true) :
    pyStrip l = [] := by
  have h1 : l.dropWhile isPyWs = [] := by
    induction l with
    | nil => rfl
    | cons c cs ih =>
      rw [List.dropWhile_cons_of_pos (h c (List.mem_cons_self _ _))]
      exact ih (fun x hx => h x (List.mem_cons_of_mem _ hx))
  rw [pyStrip, h1]
  rfl

/-- Every character of every line produced by `splitLinesF` comes from the
input or the accumulator. -/
theorem splitLinesF_all {p : Char → Bool} :
    ∀ (fuel : ℕ) (l acc : List Char), (∀ c ∈ l, p c = true) →
      (∀ c ∈ acc, p c = true) →
      ∀ line ∈ splitLinesF fuel l acc, ∀ c ∈ line, p c = true := by
  intro fuel
  induction fuel with
  | zero => intro l acc _ _ line hline; cases hline
  | succ fuel ih =>
    intro l acc hl ha line hline c hc
    match l with
    | [] =>
      rw [splitLinesF] at hline
      split_ifs at hline with hacc
      · cases hline
      · rw [List.mem_singleton] at hline
        subst hline
        exact ha c (List.mem_reverse.1 hc)
    | x :: cs =>
      have hx : p x = true := hl x (List.mem_cons_self _ _)
      have hcs : ∀ y ∈ cs, p y = true := fun y hy => hl y (List.mem_cons_of_mem _ hy)
      rw [splitLinesF] at hline
      split_ifs at hline with h1 h2 h3
      · rcases List.mem_cons.1 hline with rfl | hline2
        · exact ha c (List.mem_reverse.1 hc)
        · exact ih cs [] hcs (by simp) line hline2 c hc
      · rcases List.mem_cons.1 hline with rfl | hline2
        · exact ha c (List.mem_reverse.1 hc)
        · refine ih cs.tail [] (fun y hy => hcs y ?_) (by simp) line hline2 c hc
          exact List.mem_of_mem_tail hy
      · rcases List.mem_cons.1 hline with rfl | hline2
        · exact ha c (List.mem_reverse.1 hc)
        · exact ih cs [] hcs (by simp) line hline2 c hc
      · refine ih cs (x :: acc) hcs ?_ line hline c hc
        intro y hy
        rcases List.mem_cons.1 hy with rfl | hy2
        · exact hx
        · exact ha y hy2

/-- C7, counterexample. The claim asserts that every response with no
recognizable command and no narrative markers yields the empty narrative
`""`; but the interpreter treats *any* non-blank non-command line as
narrative, so the marker-free response `"hello world"` yields the
narrative `"hello world"`, not `""`. -/
theorem claim_C7_counterexample :
    parse_response "hello world".toList = ([], "hello world".toList) ∧
      "hello world".toList ≠ ([] : List Char) := by
  constructor
  · decide
  · decide

/-- C7, amended: for every response text consisting only of whitespace
(hence with no recognizable command and no text that could become
narrative), the interpreter returns `([], "")`, and the orchestrator then
sets `lastAction` to the `observe` sentinel rather than treating the
iteration as an error. Responses containing non-blank non-command text
yield that text as the narrative instead. -/
theorem claim_C7_amended (content story lastAction : List Char)
    (h : ∀ c ∈ content, isPyWs c = true) :
    parse_response content = ([], []) ∧
      (orchestratorStep content story lastAction).2 = "observe".toList := by
  have htick : ∀ c ∈ content, c ≠ tick := by
    intro c hc heq
    have h2 := h c hc
    rw [heq] at h2
    exact absurd h2 (by decide)
  have hfe : fenceExtract content = none := by
    rw [fenceExtract, findFence_eq_none htick]
  have hscope : scopeOf content = content := by
    rw [scopeOf, hfe]
  have hcalls : findCalls false content = [] := findCallsF_ws _ _ _ h
  have hpr : parse_response content = ([], []) := by
    simp only [parse_response, hfe, hscope, hcalls]
    have hf : ((splitLines content).filterMap (fun line =>
        let s := pyStrip line
        if s ≠ [] && findCalls false s = [] then some s else none)) = [] := by
      refine List.filterMap_eq_nil_iff.2 (fun line hline => ?_)
      have hws : ∀ c ∈ line, isPyWs c = true :=
        splitLinesF_all _ _ _ h (by simp) line hline
      simp [pyStrip_eq_nil hws]
    rw [hf]
    decide
  refine ⟨hpr, ?_⟩
  simp [orchestratorStep, hpr]

/-- Witness for C7 (amended) at a concrete whitespace-only response. -/
theorem claim_C7_amended_witness :
    parse_response "  \n ".toList = ([], []) ∧
      (orchestratorStep "  \n ".toList "story".toList "init".toList).2 =
        "observe".toList :=
  claim_C7_amended "  \n ".toList "story".toList "init".toList (by decide)

/-! ## C4: smooth-move interpolation -/

theorem findFence_append {before rest : List Char} (h : tick ∉ before) :
    findFence (before ++ tick :: tick :: tick :: rest) = some (before, rest) := by
  induction before with
  | nil => simp [findFence]
  | cons c bs ih =>
    have hc : c ≠ tick := fun he => h (he ▸ List.mem_cons_self _ _)
    have h2 := ih (fun hm => h (List.mem_cons_of_mem _ hm))
    simp [findFence, hc, h2]

/-- The C5 scenario content: prose, a fenced `left_click(100,200)` call,
prose. -/
def c5content (before after : List Char) : List Char :=
  before ++ tick :: tick :: tick ::
    ("left_click(100,200)".toList ++ tick :: tick :: tick :: after)

theorem c5_fenceExtract (before after : List Char) (hb : tick ∉ before) :
    fenceExtract (c5content before after) =
      some (before, "left_click(100,200)".toList, after) := by
  have h1 : findFence (c5content before after) =
      some (before, "left_click(100,200)".toList ++ tick :: tick :: tick :: after) :=
    findFence_append hb
  have h2 : findFence ("left_click(100,200)".toList ++ tick :: tick :: tick :: after) =
      some ("left_click(100,200)".toList, after) :=
    findFence_append (by decide)
  have hpt : pythonTag ("left_click(100,200)".toList ++ tick :: tick :: tick :: after) =
      false := rfl
  rw [fenceExtract, h1]
  simp only [hpt, Bool.false_eq_true, if_false]
  rw [show (("left_click(100,200)".toList ++ tick :: tick :: tick :: after).dropWhile
    isPyWs) = "left_click(100,200)".toList ++ tick :: tick :: tick :: after from rfl]
  rw [h2]

/-- C5, counterexample. The claim asserts the narrative equals
`trim(before) + "\n" + trim(after)` for arbitrary prose; but
`parse_response` additionally strips leading markdown glyphs per line, so
for before-prose `"# Hi"` the narrative is `"Hi\nBye"`, not
`"# Hi\nBye"`. -/
theorem claim_C5_counterexample :
    parse_response "# Hi\n```left_click(100,200)```\nBye".toList =
        ([("left_click", [PyVal.i 100, PyVal.i 200])], "Hi\nBye".toList) ∧
      "Hi\nBye".toList ≠ "# Hi".toList ++ '\n' :: "Bye".toList := by
  constructor
  · decide
  · decide

/-- C5, amended: for every response made of prose (backtick-free,
non-blank when trimmed) around a fenced `left_click(100,200)` block,
interpret returns exactly one action `("left_click", [100, 200])`, and the
narrative is `trim(before) + "\n" + trim(after)` *after* the per-line
markdown-glyph cleanup (`re.sub(r"^[#*>\-]+\s*", "", ·, MULTILINE)`) and a
final trim. -/
theorem claim_C5_amended (before after : List Char) (hb : tick ∉ before)
    (hsb : pyStrip before ≠ []) (hsa : pyStrip after ≠ []) :
    parse_response (c5content before after) =
      ([("left_click", [PyVal.i 100, PyVal.i 200])],
        pyStrip (mdScanRun (pyStrip (pyStrip before ++ '\n' :: pyStrip after)))) := by
  have hfe := c5_fenceExtract before after hb
  have hscope : scopeOf (c5content before after) = "left_click(100,200)".toList := by
    rw [scopeOf, hfe]
  simp only [parse_response, hfe, hscope, if_neg hsb, if_neg hsa]
  rfl

/-- Witness for C5 (amended) at concrete prose. -/
theorem claim_C5_amended_witness :
    parse_response (c5content "Intro".toList "Outro".toList) =
      ([("left_click", [PyVal.i 100, PyVal.i 200])],
        pyStrip (mdScanRun (pyStrip (pyStrip "Intro".toList ++
          '\n' :: pyStrip "Outro".toList)))) :=
  claim_C5_amended "Intro".toList "Outro".toList (by decide) (by decide) (by decide)

/-! ## C10: only the first fenced block produces actions -/

/-- The commands extracted from an action-search scope. -/
def commandsOf (l : List Char) : List (String × List PyVal) :=
  (findCalls false l).filterMap
    (fun m => (parse_args m.1 (pyStrip m.2)).map (fun ps => (m.1, ps)))

/-- What the fence regex strips from the head of a code block: the
optional case-insensitive `python` tag, then greedy whitespace. -/
def stripTag (l : List Char) : List Char :=
  (if pythonTag l then l.drop 6 else l).dropWhile isPyWs

theorem pythonTag_length {l : List Char} (h : pythonTag l = true) :
    6 ≤ l.length := by
  rw [pythonTag, decide_eq_true_eq] at h
  have hlen := congrArg List.length h
  simp at hlen
  omega

theorem pythonTag_append {code : List Char} (hc : tick ∉ code) (X : List Char) :
    pythonTag (code ++ tick :: X) = pythonTag code := by
  rcases le_or_lt 6 code.length with h6 | h6
  · rw [pythonTag, pythonTag, List.take_append_of_le_length h6]
  · have hr : pythonTag code = false := by
      rw [pythonTag, decide_eq_false_iff_not]
      intro h
      exact absurd (pythonTag_length (by rw [pythonTag, decide_eq_true_eq]; exact h))
        (by omega)
    rw [hr]
    rw [pythonTag, decide_eq_false_iff_not]
    intro h
    have h1 : (((code ++ tick :: X).take 6).map Char.toLower)[code.length]? =
        some (Char.toLower tick) := by
      rw [List.getElem?_map, List.getElem?_take, if_pos h6,
        List.getElem?_append_right (le_refl _)]
      simp
    rw [h] at h1
    have h2 : Char.toLower tick = tick := rfl
    rw [h2] at h1
    interval_cases hcl : code.length <;> simp at h1 <;> exact absurd h1 (by decide)

theorem stripTag_no_tick {code : List Char} (hc : tick ∉ code) :
    tick ∉ stripTag code := by
  intro hm
  rw [stripTag] at hm
  have h1 := (List.dropWhile_sublist _).subset hm
  split_ifs at h1 with hpy
  · exact hc ((List.drop_sublist _ _).subset h1)
  · exact hc h1

/-- Group 1 of the fence regex on a first fenced block `code` (tick-free)
is exactly `stripTag code`, independently of the surrounding text. -/
theorem c10_fenceExtract (before code after : List Char)
    (hb : tick ∉ before) (hc : tick ∉ code) :
    fenceExtract (before ++ tick :: tick :: tick ::
        (code ++ tick :: tick :: tick :: after)) =
      some (before, stripTag code, after) := by
  have h1 := @findFence_append before (code ++ tick :: tick :: tick :: after) hb
  have hpt := pythonTag_append hc (tick :: tick :: after)
  have hrest1 : (if pythonTag (code ++ tick :: tick :: tick :: after) then
      (code ++ tick :: tick :: tick :: after).drop 6
      else (code ++ tick :: tick :: tick :: after)) =
      (if pythonTag code then code.drop 6 else code) ++ tick :: tick :: tick :: after := by
    rw [hpt]
    by_cases hpy : pythonTag code
    · rw [if_pos hpy, if_pos hpy,
        List.drop_append_of_le_length (pythonTag_length hpy)]
    · rw [if_neg hpy, if_neg hpy]
  have hcore : tick ∉ (if pythonTag code then code.drop 6 else code) := by
    intro hm
    split_ifs at hm with hpy
    · exact hc ((List.drop_sublist _ _).subset hm)
    · exact hc hm
  have hrest2 : ((if pythonTag code then code.drop 6 else code) ++
      tick :: tick :: tick :: after).dropWhile isPyWs =
      stripTag code ++ tick :: tick :: tick :: after := by
    rw [List.dropWhile_append, stripTag]
    by_cases he : ((if pythonTag code then code.drop 6 else code).dropWhile isPyWs).isEmpty
    · rw [if_pos he]
      rw [List.isEmpty_iff] at he
      rw [he]
      rfl
    · rw [if_neg he]
  have h2 : findFence (stripTag code ++ tick :: tick :: tick :: after) =
      some (stripTag code, after) := findFence_append (stripTag_no_tick hc)
  rw [fenceExtract, h1]
  simp only [hrest1, hrest2, h2]

/-- C10: when the response contains a fenced code block, only function
calls inside the first fenced block produce actions: the parsed command
list depends only on the (tag-stripped) content of the first fence —
calls before it, after its closing fence, or inside any later fenced
block (all inside `before`/`after` here) contribute nothing. -/
theorem claim_C10 (before code after : List Char)
    (hb : tick ∉ before) (hc : tick ∉ code) :
    (parse_response (before ++ tick :: tick :: tick ::
        (code ++ tick :: tick :: tick :: after))).1 =
      commandsOf (stripTag code) := by
  have hfe := c10_fenceExtract before code after hb hc
  have hscope : scopeOf (before ++ tick :: tick :: tick ::
      (code ++ tick :: tick :: tick :: after)) = stripTag code := by
    rw [scopeOf, hfe]
  rw [parse_response]
  simp only [hscope]
  rfl

/-- Witness for C10: calls in the prose, after the fence, and in a later
fence are ignored; only the fenced `type("x")` yields an action. -/
theorem claim_C10_witness :
    (parse_response ("left_click(1,2) ".toList ++ tick :: tick :: tick ::
        ("type(\"x\")".toList ++ tick :: tick :: tick ::
          (" right_click(3,4) and drag(5,6,7,8)".toList)))).1 =
      commandsOf (stripTag "type(\"x\")".toList) ∧
    commandsOf (stripTag "type(\"x\")".toList) = [("type", [PyVal.s ['x']])] := by
  refine ⟨claim_C10 "left_click(1,2) ".toList "type(\"x\")".toList
    " right_click(3,4) and drag(5,6,7,8)".toList (by decide) (by decide), ?_⟩
  decide

/-! ## C9: round-trip of command formatting

Supporting machinery: substring predicate, inversion of the call matcher,
backtick-pair analysis, and decimal formatting lemmas. -/

/-- `SubSeg t s`: `t` occurs as a contiguous segment of `s`. -/
def SubSeg (t s : List Char) : Prop := ∃ u v, s = u ++ t ++ v

theorem SubSeg.rfl {l : List Char} : SubSeg l l := ⟨[], [], by simp⟩

theorem SubSeg.trans {a b c : List Char} (h1 : SubSeg a b) (h2 : SubSeg b c) :
    SubSeg a c := by
  obtain ⟨u1, v1, rfl⟩ := h1
  obtain ⟨u2, v2, rfl⟩ := h2
  exact ⟨u2 ++ u1, v1 ++ v2, by simp⟩

theorem SubSeg.not_mem {t s : List Char} {c : Char} (h : SubSeg t s)
    (hc : c ∉ s) : c ∉ t := by
  obtain ⟨u, v, rfl⟩ := h
  intro hm
  exact hc (by simp [hm])

theorem SubSeg_cons {t s : List Char} (c : Char) (h : SubSeg t s) :
    SubSeg t (c :: s) := by
  obtain ⟨u, v, rfl⟩ := h
  exact ⟨c :: u, v, by simp⟩

theorem dropPre_eq : ∀ (p l r : List Char), dropPre p l = some r → l = p ++ r := by
  intro p
  induction p with
  | nil =>
    intro l r h
    cases h
    rfl
  | cons x ps ih =>
    intro l r h
    match l with
    | [] => cases h
    | c :: cs =>
      rw [dropPre] at h
      split_ifs at h with hxc
      subst hxc
      rw [List.cons_append, ih cs r h]

theorem dropPre_self : ∀ (p r : List Char), dropPre p (p ++ r) = some r := by
  intro p r
  induction p with
  | nil => rfl
  | cons x ps ih => simpa [dropPre] using ih

/-- The five ways `matchCallAt` can succeed. -/
theorem matchCallAt_eq {l : List Char} {n : String} {r : List Char}
    (h : matchCallAt l = some (n, r)) :
    (n = "left_click" ∧ l = leftClickCs ++ r) ∨
    (n = "right_click" ∧ l = rightClickCs ++ r) ∨
    (n = "double_left_click" ∧ l = doubleLeftClickCs ++ r) ∨
    (n = "drag" ∧ l = dragCs ++ r) ∨
    (n = "type" ∧ l = typeCs ++ r) := by
  rw [matchCallAt] at h
  cases h1 : dropPre leftClickCs l with
  | some r1 =>
    rw [h1] at h
    cases h
    exact Or.inl ⟨rfl, dropPre_eq _ _ _ h1⟩
  | none =>
  rw [h1] at h
  cases h2 : dropPre rightClickCs l with
  | some r2 =>
    rw [h2] at h
    cases h
    exact Or.inr (Or.inl ⟨rfl, dropPre_eq _ _ _ h2⟩)
  | none =>
  rw [h2] at h
  cases h3 : dropPre doubleLeftClickCs l with
  | some r3 =>
    rw [h3] at h
    cases h
    exact Or.inr (Or.inr (Or.inl ⟨rfl, dropPre_eq _ _ _ h3⟩))
  | none =>
  rw [h3] at h
  cases h4 : dropPre dragCs l with
  | some r4 =>
    rw [h4] at h
    cases h
    exact Or.inr (Or.inr (Or.inr (Or.inl ⟨rfl, dropPre_eq _ _ _ h4⟩)))
  | none =>
  rw [h4] at h
  cases h5 : dropPre typeCs l with
  | some r5 =>
    rw [h5] at h
    cases h
    exact Or.inr (Or.inr (Or.inr (Or.inr ⟨rfl, dropPre_eq _ _ _ h5⟩)))
  | none =>
    rw [h5] at h
    cases h

theorem splitParen_eq : ∀ {l a b : List Char}, splitParen l = some (a, b) →
    l = a ++ ')' :: b ∧ ')' ∉ a := by
  intro l
  induction l with
  | nil => intro a b h; cases h
  | cons c cs ih =>
    intro a b h
    rw [splitParen] at h
    split_ifs at h with hc
    · cases h
      subst hc
      exact ⟨rfl, by simp⟩
    · cases h2 : splitParen cs with
      | none => rw [h2] at h; cases h
      | some p =>
        rw [h2] at h
        cases h
        obtain ⟨he, hm⟩ := ih h2
        refine ⟨by rw [List.cons_append, he], ?_⟩
        intro hmem
        rcases List.mem_cons.1 hmem with rfl | hmem2
        · exact hc rfl
        · exact hm hmem2

theorem splitParen_append : ∀ {a : List Char} (b : List Char), ')' ∉ a →
    splitParen (a ++ ')' :: b) = some (a, b) := by
  intro a
  induction a with
  | nil => intro b _; rfl
  | cons c cs ih =>
    intro b h
    have hc : c ≠ ')' := fun he => h (he ▸ List.mem_cons_self _ _)
    rw [List.cons_append, splitParen, if_neg hc, ih b (fun hm => h (List.mem_cons_of_mem _ hm))]
    rfl

/-- Inversion of a successful `matchCall`: the matched name is one of the
five, the capture group is a `)`-free segment of `l`, and the scan resumes
after the closing parenthesis. -/
theorem matchCall_eq {b : Bool} {l : List Char} {n : String} {g2 r : List Char}
    (h : matchCall b l = some (n, g2, r)) :
    (n = "left_click" ∨ n = "right_click" ∨ n = "double_left_click" ∨
      n = "drag" ∨ n = "type") ∧
    (∃ u, l = u ++ g2 ++ ')' :: r) ∧ ')' ∉ g2 := by
  cases b with
  | true => exact Option.noConfusion h
  | false =>
  rw [matchCall, if_neg (by simp)] at h
  cases h1 : matchCallAt l with
  | none =>
    rw [h1] at h
    exact Option.noConfusion h
  | some p =>
    obtain ⟨nm, rest⟩ := p
    simp only [h1] at h
    cases h2 : rest.dropWhile isPyWs with
    | nil =>
      simp only [h2] at h
      exact Option.noConfusion h
    | cons c rest2 =>
      simp only [h2] at h
      split_ifs at h with hc
      subst hc
      cases h3 : splitParen rest2 with
      | none =>
        simp only [h3, Option.map_none'] at h
        exact Option.noConfusion h
      | some q =>
        simp only [h3, Option.map_some'] at h
        cases h
        obtain ⟨he2, hnp⟩ := splitParen_eq h3
        have hrest : rest = rest.takeWhile isPyWs ++ '(' :: rest2 := by
          conv_lhs => rw [← List.takeWhile_append_dropWhile (p := isPyWs) (l := rest)]
          rw [h2]
        have hu : ∀ X : List Char, l = X ++ rest → ∃ u, l = u ++ q.1 ++ ')' :: q.2 :=
          fun X hX => ⟨X ++ rest.takeWhile isPyWs ++ ['('], by
            conv_lhs => rw [hX, hrest, he2]
            simp⟩
        rcases matchCallAt_eq h1 with ⟨hn, he⟩ | ⟨hn, he⟩ | ⟨hn, he⟩ | ⟨hn, he⟩ | ⟨hn, he⟩ <;>
          exact ⟨by tauto, hu _ he, hnp⟩

theorem findCallsF_nil (fuel : ℕ) (b : Bool) : findCallsF fuel b [] = [] := by
  cases fuel <;> rfl

/-- A single complete match consuming the whole string is the whole scan. -/
theorem findCalls_single {l : List Char} {n : String} {g2 : List Char}
    (h : matchCall false l = some (n, g2, [])) :
    findCalls false l = [(n, g2)] := by
  cases l with
  | nil => exact Option.noConfusion h
  | cons c cs =>
    rw [findCalls, show (c :: cs).length = cs.length + 1 from rfl, findCallsF]
    simp only [h]
    rw [findCallsF_nil]

/-- Every scanned capture group is a `)`-free segment of the input, and
its name is one of the five action names. -/
theorem findCallsF_mem : ∀ (fuel : ℕ) (b : Bool) (l : List Char) (n : String)
    (g2 : List Char), (n, g2) ∈ findCallsF fuel b l →
    (n = "left_click" ∨ n = "right_click" ∨ n = "double_left_click" ∨
      n = "drag" ∨ n = "type") ∧ SubSeg g2 l ∧ ')' ∉ g2 := by
  intro fuel
  induction fuel with
  | zero =>
    intro b l n g2 h
    cases h
  | succ fuel ih =>
    intro b l n g2 h
    match l with
    | [] =>
      rw [findCallsF_nil] at h
      cases h
    | c :: cs =>
      rw [findCallsF] at h
      cases hm : matchCall b (c :: cs) with
      | some p =>
        obtain ⟨n', g2', rest⟩ := p
        simp only [hm] at h
        rcases List.mem_cons.1 h with heq | hmem
        · cases heq
          obtain ⟨hnames, ⟨u, hu⟩, hnp⟩ := matchCall_eq hm
          exact ⟨hnames, ⟨u, ')' :: rest, hu⟩, hnp⟩
        · have hres := ih false rest n g2 hmem
          obtain ⟨hnames, ⟨u, hu⟩, hnp⟩ := matchCall_eq hm
          refine ⟨hres.1, ?_, hres.2.2⟩
          refine hres.2.1.trans ⟨u ++ g2' ++ [')'], [], ?_⟩
          rw [hu]
          simp
      | none =>
        simp only [hm] at h
        have hres := ih (isWordChar c) cs n g2 h
        exact ⟨hres.1, SubSeg_cons c hres.2.1, hres.2.2⟩

/-- Three consecutive backticks occur in `l` at index `i`. -/
def occ3 (l : List Char) (i : ℕ) : Prop :=
  l[i]? = some tick ∧ l[i + 1]? = some tick ∧ l[i + 2]? = some tick

/-- Two sufficiently separated triple-backtick occurrences, i.e. exactly
the condition under which the fence regex has a match. -/
def fencePair (l : List Char) : Prop :=
  ∃ i j, i + 3 ≤ j ∧ occ3 l i ∧ occ3 l j

theorem lt_of_getElem?_some {l : List Char} {i : ℕ} {a : Char}
    (h : l[i]? = some a) : i < l.length := by
  by_contra hc
  rw [List.getElem?_eq_none (Nat.le_of_not_lt hc)] at h
  exact Option.noConfusion h

theorem getElem?_mid {u t v : List Char} {j : ℕ} (h1 : u.length ≤ j)
    (h2 : j < u.length + t.length) : ((u ++ t) ++ v)[j]? = t[j - u.length]? := by
  rw [List.getElem?_append, if_pos (by simp; omega),
    List.getElem?_append_right h1]

theorem occ3_shift {t : List Char} (u v : List Char) {k : ℕ} (ho : occ3 t k) :
    occ3 ((u ++ t) ++ v) (u.length + k) := by
  obtain ⟨h1, h2, h3⟩ := ho
  have hk : k + 2 < t.length := lt_of_getElem?_some h3
  refine ⟨?_, ?_, ?_⟩
  · rw [getElem?_mid (by omega) (by omega), Nat.add_sub_cancel_left]
    exact h1
  · rw [show u.length + k + 1 = u.length + (k + 1) by omega,
      getElem?_mid (by omega) (by omega), Nat.add_sub_cancel_left]
    exact h2
  · rw [show u.length + k + 2 = u.length + (k + 2) by omega,
      getElem?_mid (by omega) (by omega), Nat.add_sub_cancel_left]
    exact h3

theorem fencePair_sub {t s : List Char} (h : SubSeg t s) (hf : fencePair t) :
    fencePair s := by
  obtain ⟨u, v, rfl⟩ := h
  obtain ⟨i, j, hij, hi, hj⟩ := hf
  exact ⟨u.length + i, u.length + j, by omega, occ3_shift u v hi, occ3_shift u v hj⟩

/-- In `u ++ t ++ v` with backtick-free `u` and `v`, every triple-backtick
occurrence lies inside `t`. -/
theorem occ3_extract {u t v : List Char} (hu : tick ∉ u) (hv : tick ∉ v) {i : ℕ}
    (h : occ3 ((u ++ t) ++ v) i) :
    u.length ≤ i ∧ occ3 t (i - u.length) := by
  obtain ⟨h1, h2, h3⟩ := h
  have hleft : u.length ≤ i := by
    by_contra hc
    rw [List.getElem?_append, if_pos (by simp; omega),
      List.getElem?_append, if_pos (by omega)] at h1
    exact hu (List.getElem?_mem h1)
  have hright : i + 2 < u.length + t.length := by
    by_contra hc
    rw [List.getElem?_append_right (by simp; omega)] at h3
    exact hv (List.getElem?_mem h3)
  refine ⟨hleft, ?_, ?_, ?_⟩
  · rw [← getElem?_mid hleft (by omega)]
    exact h1
  · rw [show i - u.length + 1 = i + 1 - u.length by omega,
      ← getElem?_mid (by omega) (by omega)]
    exact h2
  · rw [show i - u.length + 2 = i + 2 - u.length by omega,
      ← getElem?_mid (by omega) (by omega)]
    exact h3

theorem fencePair_extract {u t v : List Char} (hu : tick ∉ u) (hv : tick ∉ v)
    (h : fencePair ((u ++ t) ++ v)) : fencePair t := by
  obtain ⟨i, j, hij, hi, hj⟩ := h
  obtain ⟨hi1, hi2⟩ := occ3_extract hu hv hi
  obtain ⟨hj1, hj2⟩ := occ3_extract hu hv hj
  exact ⟨i - u.length, j - u.length, by omega, hi2, hj2⟩

theorem occ3_zero_cond {c : Char} {cs : List Char} (h : occ3 (c :: cs) 0) :
    c = tick ∧ cs.take 2 = [tick, tick] := by
  obtain ⟨h1, h2, h3⟩ := h
  simp only [List.getElem?_cons_zero, Option.some_inj] at h1
  refine ⟨h1, ?_⟩
  cases cs with
  | nil => simp at h2
  | cons x cs' =>
    cases cs' with
    | nil => simp at h3
    | cons y cs'' =>
      simp only [List.getElem?_cons_succ, List.getElem?_cons_zero,
        Option.some_inj] at h2 h3
      simp [List.take, h2, h3]

theorem occ3_at (u w : List Char) : occ3 (u ++ tick :: tick :: tick :: w) u.length := by
  refine ⟨?_, ?_, ?_⟩
  · rw [List.getElem?_append_right (le_refl _), Nat.sub_self]
    simp
  · rw [List.getElem?_append_right (by omega),
      show u.length + 1 - u.length = 1 by omega]
    simp
  · rw [List.getElem?_append_right (by omega),
      show u.length + 2 - u.length = 2 by omega]
    simp

theorem findFence_none_occ3 {l : List Char} (h : findFence l = none) :
    ∀ i, ¬occ3 l i := by
  induction l with
  | nil =>
    intro i ho
    obtain ⟨h1, _, _⟩ := ho
    simp at h1
  | cons c cs ih =>
    simp only [findFence] at h
    split_ifs at h with hcond
    have hrec : findFence cs = none := by
      cases hfc : findFence cs with
      | none => rfl
      | some p => rw [hfc] at h; exact Option.noConfusion h
    intro i ho
    match i with
    | 0 =>
      obtain ⟨hc, ht⟩ := occ3_zero_cond ho
      exact hcond (by simp [hc, ht])
    | i + 1 =>
      obtain ⟨h1, h2, h3⟩ := ho
      simp only [List.getElem?_cons_succ] at h1 h2 h3
      exact ih hrec i ⟨h1, h2, h3⟩

theorem findFence_some {l : List Char} : ∀ {b r : List Char},
    findFence l = some (b, r) →
    l = b ++ tick :: tick :: tick :: r ∧ ∀ k, k < b.length → ¬occ3 l k := by
  induction l with
  | nil => intro b r h; exact Option.noConfusion h
  | cons c cs ih =>
    intro b r h
    simp only [findFence] at h
    split_ifs at h with hcond
    · cases h
      simp only [Bool.and_eq_true, decide_eq_true_eq] at hcond
      obtain ⟨hc, ht⟩ := hcond
      subst hc
      constructor
      · have hcs : cs = cs.take 2 ++ cs.drop 2 := (List.take_append_drop 2 cs).symm
        rw [List.nil_append]
        nth_rewrite 1 [hcs]
        rw [ht]
        rfl
      · intro k hk
        simp at hk
    · cases hfc : findFence cs with
      | none => rw [hfc] at h; exact Option.noConfusion h
      | some p =>
        rw [hfc, Option.map_some'] at h
        cases h
        obtain ⟨he, hmin⟩ := ih hfc
        constructor
        · rw [List.cons_append, ← he]
        · intro k hk ho
          match k with
          | 0 =>
            obtain ⟨hc, ht⟩ := occ3_zero_cond ho
            exact hcond (by simp [hc, ht])
          | k + 1 =>
            obtain ⟨h1, h2, h3⟩ := ho
            simp only [List.getElem?_cons_succ] at h1 h2 h3
            exact hmin k (by simpa using hk) ⟨h1, h2, h3⟩

theorem occ3_right {u w : List Char} {j : ℕ} (h : occ3 (u ++ w) j)
    (hj : u.length ≤ j) : occ3 w (j - u.length) := by
  obtain ⟨h1, h2, h3⟩ := h
  rw [List.getElem?_append_right hj] at h1
  rw [List.getElem?_append_right (by omega)] at h2
  rw [List.getElem?_append_right (by omega)] at h3
  refine ⟨h1, ?_, ?_⟩
  · rw [show j - u.length + 1 = j + 1 - u.length by omega]
    exact h2
  · rw [show j - u.length + 2 = j + 2 - u.length by omega]
    exact h3

theorem occ3_left {u w : List Char} {j : ℕ} (h : occ3 (u ++ w) j)
    (hu : tick ∉ u) : u.length ≤ j := by
  by_contra hc
  obtain ⟨h1, _, _⟩ := h
  rw [List.getElem?_append, if_pos (by omega)] at h1
  exact hu (List.getElem?_mem h1)

theorem pythonTag_no_tick {r : List Char} (h : pythonTag r = true) :
    tick ∉ r.take 6 := by
  rw [pythonTag, decide_eq_true_eq] at h
  intro hm
  have h2 : Char.toLower tick ∈ (r.take 6).map Char.toLower :=
    List.mem_map_of_mem _ hm
  rw [h] at h2
  exact absurd h2 (by decide)

theorem takeWhile_ws_no_tick (l : List Char) : tick ∉ l.takeWhile isPyWs := by
  intro hm
  have h := List.mem_takeWhile_imp hm
  exact absurd h (by decide)

/-- If the fence regex has no match, `fenceExtract` is `none`. -/
theorem fenceExtract_none {l : List Char} (h : ¬fencePair l) :
    fenceExtract l = none := by
  cases hf : findFence l with
  | none => simp only [fenceExtract, hf]
  | some p =>
    obtain ⟨b, r⟩ := p
    obtain ⟨he, _⟩ := findFence_some hf
    cases h2 : findFence ((if pythonTag r then r.drop 6 else r).dropWhile isPyWs) with
    | none => simp only [fenceExtract, hf, h2]
    | some q =>
      exfalso
      apply h
      obtain ⟨g, a⟩ := q
      obtain ⟨he2, _⟩ := findFence_some h2
      have hd1 : r = (if pythonTag r then r.take 6 else []) ++
          (if pythonTag r then r.drop 6 else r) := by
        split_ifs
        · exact (List.take_append_drop 6 r).symm
        · rfl
      have hd2 : (if pythonTag r then r.drop 6 else r) =
          ((if pythonTag r then r.drop 6 else r).takeWhile isPyWs) ++
          ((if pythonTag r then r.drop 6 else r).dropWhile isPyWs) :=
        (List.takeWhile_append_dropWhile _ _).symm
      have hL2 : l = (b ++ tick :: tick :: tick ::
          ((if pythonTag r then r.take 6 else []) ++
           ((if pythonTag r then r.drop 6 else r).takeWhile isPyWs) ++ g)) ++
          tick :: tick :: tick :: a := by
        rw [he]
        nth_rewrite 1 [hd1]
        nth_rewrite 1 [hd2]
        rw [he2]
        simp
      refine ⟨b.length, (b ++ tick :: tick :: tick ::
        ((if pythonTag r then r.take 6 else []) ++
         ((if pythonTag r then r.drop 6 else r).takeWhile isPyWs) ++ g)).length,
        ?_, ?_, ?_⟩
      · simp
      · rw [he]
        exact occ3_at b r
      · rw [hL2]
        exact occ3_at _ a

/-- Conversely, when `fenceExtract` fails there are no two separated
triple-backtick occurrences in the content. -/
theorem not_fencePair_of_none {l : List Char} (h : fenceExtract l = none) :
    ¬fencePair l := by
  cases hf : findFence l with
  | none =>
    intro hfp
    obtain ⟨i, _, _, hi, _⟩ := hfp
    exact findFence_none_occ3 hf i hi
  | some p =>
    obtain ⟨b, r⟩ := p
    rw [fenceExtract] at h
    simp only [hf] at h
    cases h2 : findFence ((if pythonTag r then r.drop 6 else r).dropWhile isPyWs) with
    | some q =>
      simp only [h2] at h
      exact Option.noConfusion h
    | none =>
      obtain ⟨he, hmin⟩ := findFence_some hf
      intro hfp
      obtain ⟨i, j, hij, hi, hj⟩ := hfp
      have hbi : b.length ≤ i := by
        by_contra hc
        exact hmin i (by omega) hi
      have hbj : b.length + 3 ≤ j := by omega
      have hj2 : occ3 r (j - (b.length + 3)) := by
        have hsplit : l = (b ++ [tick, tick, tick]) ++ r := by
          rw [he]
          simp
        rw [hsplit] at hj
        have := occ3_right hj (by simp; omega)
        simpa using this
      have hdfree : tick ∉ (if pythonTag r then r.take 6 else []) ++
          ((if pythonTag r then r.drop 6 else r).takeWhile isPyWs) := by
        intro hm
        rcases List.mem_append.1 hm with hm1 | hm2
        · split_ifs at hm1 with hpy
          · exact pythonTag_no_tick hpy hm1
          · cases hm1
        · exact takeWhile_ws_no_tick _ hm2
      have hrsplit : r = ((if pythonTag r then r.take 6 else []) ++
          ((if pythonTag r then r.drop 6 else r).takeWhile isPyWs)) ++
          ((if pythonTag r then r.drop 6 else r).dropWhile isPyWs) := by
        nth_rewrite 1 [show r = (if pythonTag r then r.take 6 else []) ++
            (if pythonTag r then r.drop 6 else r) by
          split_ifs
          · exact (List.take_append_drop 6 r).symm
          · rfl]
        nth_rewrite 1 [show (if pythonTag r then r.drop 6 else r) =
            ((if pythonTag r then r.drop 6 else r).takeWhile isPyWs) ++
            ((if pythonTag r then r.drop 6 else r).dropWhile isPyWs) from
          (List.takeWhile_append_dropWhile _ _).symm]
        simp
      rw [hrsplit] at hj2
      have hge := occ3_left hj2 hdfree
      have hocc := occ3_right hj2 hge
      exact findFence_none_occ3 h2 _ hocc

/-- The action-search scope never contains a fence pair: group 1 of a
matched fence regex is backtick-occurrence-free, and an unfenced content
has no pair at all. -/
theorem scope_nfp (content : List Char) : ¬fencePair (scopeOf content) := by
  cases hfe : fenceExtract content with
  | none =>
    simp only [scopeOf, hfe]
    exact not_fencePair_of_none hfe
  | some t =>
    simp only [scopeOf, hfe]
    rw [fenceExtract] at hfe
    cases hf : findFence content with
    | none =>
      simp only [hf] at hfe
      exact Option.noConfusion hfe
    | some p =>
      obtain ⟨b, r⟩ := p
      simp only [hf] at hfe
      cases h2 : findFence ((if pythonTag r then r.drop 6 else r).dropWhile isPyWs) with
      | none =>
        simp only [h2] at hfe
        exact Option.noConfusion hfe
      | some q =>
        obtain ⟨g, a⟩ := q
        simp only [h2] at hfe
        cases hfe
        obtain ⟨he2, hmin⟩ := findFence_some h2
        intro hfp
        obtain ⟨i, j, hij, hi, hj⟩ := hfp
        have hilen : i + 2 < g.length := lt_of_getElem?_some hi.2.2
        have hocc : occ3 ((if pythonTag r then r.drop 6 else r).dropWhile isPyWs) i := by
          rw [he2]
          have := occ3_shift (t := g) [] (tick :: tick :: tick :: a) hi
          simpa using this
        exact hmin i (by omega) hocc

/-! Decimal formatting: `natChars`/`intStr` round-trip through `findInts`. -/

theorem natCharsF_digits : ∀ (fuel n : ℕ), n < fuel →
    ∀ c ∈ natCharsF fuel n, c.isDigit = true := by
  intro fuel
  induction fuel with
  | zero => intro n hn; omega
  | succ fuel ih =>
    intro n hn c hc
    rw [natCharsF] at hc
    split_ifs at hc with h10
    · rw [List.mem_singleton] at hc
      subst hc
      interval_cases n <;> decide
    · rcases List.mem_append.1 hc with hc1 | hc2
      · exact ih (n / 10) (by omega) c hc1
      · rw [List.mem_singleton] at hc2
        subst hc2
        have hm : n % 10 < 10 := Nat.mod_lt _ (by omega)
        generalize n % 10 = m at hm ⊢
        interval_cases m <;> decide

theorem natChars_digits (n : ℕ) : ∀ c ∈ natChars n, c.isDigit = true :=
  natCharsF_digits (n + 1) n (by omega)

theorem natCharsF_ne_nil : ∀ (fuel n : ℕ), n < fuel → natCharsF fuel n ≠ [] := by
  intro fuel
  induction fuel with
  | zero => intro n hn; omega
  | succ fuel _ =>
    intro n _
    rw [natCharsF]
    split_ifs <;> simp

theorem natChars_ne_nil (n : ℕ) : natChars n ≠ [] :=
  natCharsF_ne_nil (n + 1) n (by omega)

theorem charOfNat_digit_toNat {m : ℕ} (h : m < 10) :
    (Char.ofNat (48 + m)).toNat = 48 + m := by
  interval_cases m <;> decide

theorem natVal_natCharsF : ∀ (fuel n : ℕ), n < fuel → ∀ acc : ℕ,
    (natCharsF fuel n).foldl (fun a c => 10 * a + (c.toNat - 48)) acc =
      acc * 10 ^ (natCharsF fuel n).length + n := by
  intro fuel
  induction fuel with
  | zero => intro n hn; omega
  | succ fuel ih =>
    intro n hn acc
    rw [natCharsF]
    split_ifs with h10
    · simp [charOfNat_digit_toNat h10]
      omega
    · rw [List.foldl_append, ih (n / 10) (by omega) acc]
      simp [charOfNat_digit_toNat (Nat.mod_lt n (by omega) : n % 10 < 10)]
      rw [pow_succ]
      have hdm := Nat.div_add_mod n 10
      ring_nf
      omega

theorem natVal_natChars (n : ℕ) : natVal (natChars n) = n := by
  have h := natVal_natCharsF (n + 1) n (by omega) 0
  simpa [natVal, natChars] using h

theorem takeWhile_append_all {p : Char → Bool} {l : List Char}
    (h : ∀ c ∈ l, p c = true) (l' : List Char) :
    (l ++ l').takeWhile p = l ++ l'.takeWhile p := by
  induction l with
  | nil => rfl
  | cons c cs ih =>
    rw [List.cons_append, List.takeWhile_cons_of_pos (h c (List.mem_cons_self _ _)),
      ih (fun x hx => h x (List.mem_cons_of_mem _ hx))]
    rfl

theorem dropWhile_append_all {p : Char → Bool} {l : List Char}
    (h : ∀ c ∈ l, p c = true) (l' : List Char) :
    (l ++ l').dropWhile p = l'.dropWhile p := by
  induction l with
  | nil => rfl
  | cons c cs ih =>
    rw [List.cons_append, List.dropWhile_cons_of_pos (h c (List.mem_cons_self _ _)),
      ih (fun x hx => h x (List.mem_cons_of_mem _ hx))]

theorem takeWhile_head_neg {p : Char → Bool} {l : List Char}
    (h : ∀ d, l.head? = some d → p d = false) : l.takeWhile p = [] := by
  cases l with
  | nil => rfl
  | cons c cs => exact List.takeWhile_cons_of_neg (by simp [h c rfl])

theorem dropWhile_head_neg {p : Char → Bool} {l : List Char}
    (h : ∀ d, l.head? = some d → p d = false) : l.dropWhile p = l := by
  cases l with
  | nil => rfl
  | cons c cs => exact List.dropWhile_cons_of_neg (by simp [h c rfl])

theorem findIntsF_nil (fuel : ℕ) : findIntsF fuel [] = [] := by
  cases fuel <;> rfl

theorem length_dropWhile_le' (p : Char → Bool) (l : List Char) :
    (l.dropWhile p).length ≤ l.length := by
  induction l with
  | nil => simp
  | cons c cs ih =>
    by_cases h : p c
    · rw [List.dropWhile_cons_of_pos h]
      simp
      omega
    · rw [List.dropWhile_cons_of_neg h]

theorem findIntsF_invariant : ∀ (k fuel₁ fuel₂ : ℕ) (l : List Char),
    l.length ≤ k → l.length ≤ fuel₁ → l.length ≤ fuel₂ →
    findIntsF fuel₁ l = findIntsF fuel₂ l := by
  intro k
  induction k with
  | zero =>
    intro fuel₁ fuel₂ l hk _ _
    have h : l = [] := List.length_eq_zero.1 (by omega)
    subst h
    rw [findIntsF_nil, findIntsF_nil]
  | succ k ih =>
    intro fuel₁ fuel₂ l hk h1 h2
    match l with
    | [] => rw [findIntsF_nil, findIntsF_nil]
    | c :: cs =>
      obtain ⟨f₁, rfl⟩ : ∃ f, fuel₁ = f + 1 := ⟨fuel₁ - 1, by simp at h1; omega⟩
      obtain ⟨f₂, rfl⟩ : ∃ f, fuel₂ = f + 1 := ⟨fuel₂ - 1, by simp at h2; omega⟩
      simp only [List.length_cons] at h1 h2 hk
      cases cs with
      | nil =>
        simp only [findIntsF]
        split_ifs with hd hm
        · rw [List.dropWhile_cons_of_pos hd]
          rw [show List.dropWhile Char.isDigit [] = [] from rfl,
            findIntsF_nil, findIntsF_nil]
        · rfl
        · rw [findIntsF_nil, findIntsF_nil]
      | cons d cs' =>
        have hlen1 := length_dropWhile_le' Char.isDigit (d :: cs')
        simp only [List.length_cons] at hlen1 h1 h2 hk
        have hdc : (d :: cs').length = cs'.length + 1 := rfl
        simp only [findIntsF]
        split_ifs with hd hm hdd
        · have hb : ((c :: d :: cs').dropWhile Char.isDigit).length ≤ cs'.length + 1 := by
            rw [List.dropWhile_cons_of_pos hd]
            exact hlen1
          exact congrArg _ (ih f₁ f₂ _ (by omega) (by omega) (by omega))
        · have hb := hlen1
          exact congrArg _ (ih f₁ f₂ _ (by omega) (by omega) (by omega))
        · exact ih f₁ f₂ _ (by omega) (by omega) (by omega)
        · exact ih f₁ f₂ _ (by omega) (by omega) (by omega)

theorem ws_not_digit {c : Char} (h : isPyWs c = true) : c.isDigit = false := by
  simp only [isPyWs, Bool.or_eq_true, decide_eq_true_eq] at h
  rcases h with ((((rfl | rfl) | rfl) | rfl) | rfl) | rfl <;> decide

theorem intStr_mem {n : ℤ} : ∀ c ∈ intStr n, c = '-' ∨ c.isDigit = true := by
  intro c hc
  rw [intStr] at hc
  split_ifs at hc with hneg
  · rcases List.mem_cons.1 hc with rfl | hc2
    · exact Or.inl rfl
    · exact Or.inr (natChars_digits _ c hc2)
  · exact Or.inr (natChars_digits _ c hc)

theorem findInts_prepend (a : ℤ) (X : List Char)
    (hX : ∀ d, X.head? = some d → d.isDigit = false) :
    findInts (intStr a ++ X) = a :: findInts X := by
  have hXtw : X.takeWhile Char.isDigit = [] := takeWhile_head_neg hX
  have hXdw : X.dropWhile Char.isDigit = X := dropWhile_head_neg hX
  have hinv : ∀ m, X.length ≤ m → findIntsF m X = findInts X := fun m hm =>
    findIntsF_invariant X.length m X.length X (le_refl _) hm (le_refl _)
  rcases le_or_lt 0 a with ha | ha
  · have hstr : intStr a = natChars a.natAbs := by
      rw [intStr, if_neg (by omega)]
    obtain ⟨c, t, hct⟩ := List.exists_cons_of_ne_nil (natChars_ne_nil a.natAbs)
    have hcd : c.isDigit = true :=
      natChars_digits _ c (by rw [hct]; exact List.mem_cons_self _ _)
    have hshape : intStr a ++ X = c :: (t ++ X) := by
      rw [hstr, hct]
      rfl
    have hback : c :: (t ++ X) = natChars a.natAbs ++ X := by
      rw [hct]
      rfl
    rw [hshape, findInts, show (c :: (t ++ X)).length = (t ++ X).length + 1 from rfl]
    simp only [findIntsF]
    rw [if_pos hcd]
    have h1 : (c :: (t ++ X)).takeWhile Char.isDigit = natChars a.natAbs := by
      rw [hback, takeWhile_append_all (natChars_digits _) X, hXtw, List.append_nil]
    have h2 : (c :: (t ++ X)).dropWhile Char.isDigit = X := by
      rw [hback, dropWhile_append_all (natChars_digits _) X, hXdw]
    rw [h1, h2, natVal_natChars, hinv _ (by simp)]
    congr 1
    omega
  · have hstr : intStr a = '-' :: natChars a.natAbs := by
      rw [intStr, if_pos (by omega)]
    obtain ⟨c, t, hct⟩ := List.exists_cons_of_ne_nil (natChars_ne_nil a.natAbs)
    have hcd : c.isDigit = true :=
      natChars_digits _ c (by rw [hct]; exact List.mem_cons_self _ _)
    have hshape : intStr a ++ X = '-' :: (c :: (t ++ X)) := by
      rw [hstr, hct]
      rfl
    have hback : c :: (t ++ X) = natChars a.natAbs ++ X := by
      rw [hct]
      rfl
    rw [hshape, findInts,
      show ('-' :: (c :: (t ++ X))).length = (c :: (t ++ X)).length + 1 from rfl]
    simp only [findIntsF]
    rw [if_neg (by decide), if_pos trivial, if_pos hcd, hback]
    have h1 : (natChars a.natAbs ++ X).takeWhile Char.isDigit = natChars a.natAbs := by
      rw [takeWhile_append_all (natChars_digits _) X, hXtw, List.append_nil]
    have h2 : (natChars a.natAbs ++ X).dropWhile Char.isDigit = X := by
      rw [dropWhile_append_all (natChars_digits _) X, hXdw]
    rw [h1, h2, natVal_natChars, hinv _ (by simp)]
    congr 1
    omega

theorem findInts_nil : findInts [] = [] := rfl

theorem findInts_comma (l : List Char) : findInts (',' :: l) = findInts l := by
  rw [findInts, show (',' :: l).length = l.length + 1 from rfl]
  simp only [findIntsF]
  rw [if_neg (by decide), if_neg (by decide)]
  exact findIntsF_invariant l.length _ _ l (le_refl _) (le_refl _) (le_refl _)

theorem findInts_single (a : ℤ) : findInts (intStr a) = [a] := by
  have h := findInts_prepend a [] (by intro d hd; cases hd)
  simpa [findInts_nil] using h

theorem findInts_pair (a b : ℤ) :
    findInts (intStr a ++ ',' :: intStr b) = [a, b] := by
  rw [findInts_prepend a _ (by intro d hd; cases hd; decide), findInts_comma,
    findInts_single]

theorem findInts_quad (a b c d : ℤ) :
    findInts (intStr a ++ ',' :: (intStr b ++ ',' :: (intStr c ++ ',' :: intStr d))) =
      [a, b, c, d] := by
  rw [findInts_prepend a _ (by intro e he; cases he; decide), findInts_comma,
    findInts_prepend b _ (by intro e he; cases he; decide), findInts_comma,
    findInts_prepend c _ (by intro e he; cases he; decide), findInts_comma,
    findInts_single]

theorem pyStrip_no_ws {l : List Char} (h : ∀ c ∈ l, isPyWs c = false) :
    pyStrip l = l := by
  have h1 : l.dropWhile isPyWs = l := by
    cases l with
    | nil => rfl
    | cons c cs =>
      exact List.dropWhile_cons_of_neg (by simp [h c (List.mem_cons_self _ _)])
  rw [pyStrip, h1]
  have h2 : l.reverse.dropWhile isPyWs = l.reverse := by
    cases hr : l.reverse with
    | nil => rfl
    | cons c cs =>
      have hc : c ∈ l := by
        rw [← List.mem_reverse, hr]
        exact List.mem_cons_self _ _
      exact List.dropWhile_cons_of_neg (by simp [h c hc])
  rw [h2, List.reverse_reverse]

theorem pyStrip_quoted (q : Char) (T : List Char) (hq : isPyWs q = false) :
    pyStrip ((q :: T) ++ [q]) = (q :: T) ++ [q] := by
  have h1 : ((q :: T) ++ [q]).dropWhile isPyWs = (q :: T) ++ [q] := by
    rw [List.cons_append]
    exact List.dropWhile_cons_of_neg (by simp [hq])
  rw [pyStrip, h1]
  have hrev : ((q :: T) ++ [q]).reverse = q :: (T.reverse ++ [q]) := by simp
  rw [hrev, List.dropWhile_cons_of_neg (by simp [hq]), ← hrev, List.reverse_reverse]

theorem pyStrip_sub (l : List Char) : SubSeg (pyStrip l) l := by
  have hd : l.dropWhile isPyWs =
      pyStrip l ++ ((l.dropWhile isPyWs).reverse.takeWhile isPyWs).reverse := by
    have h2 := congrArg List.reverse
      (List.takeWhile_append_dropWhile (p := isPyWs) (l := (l.dropWhile isPyWs).reverse))
    rw [List.reverse_append, List.reverse_reverse] at h2
    rw [pyStrip]
    exact h2.symm
  refine ⟨l.takeWhile isPyWs,
    ((l.dropWhile isPyWs).reverse.takeWhile isPyWs).reverse, ?_⟩
  conv_lhs => rw [← List.takeWhile_append_dropWhile (p := isPyWs) (l := l), hd]
  simp

theorem dropOneLast_sub (t : List Char) : SubSeg ((t.drop 1).dropLast) t := by
  cases t with
  | nil => exact ⟨[], [], rfl⟩
  | cons c cs =>
    rw [List.drop_one, List.tail_cons]
    by_cases hnil : cs = []
    · subst hnil
      exact ⟨[c], [], rfl⟩
    · refine ⟨[c], [cs.getLast hnil], ?_⟩
      simp [List.dropLast_append_getLast hnil]

theorem digit_ne_tick {c : Char} (h : c.isDigit = true) : c ≠ tick := by
  intro he
  subst he
  exact absurd h (by decide)

theorem digit_not_ws {c : Char} (h : c.isDigit = true) : isPyWs c = false := by
  by_contra hws
  rw [Bool.not_eq_false] at hws
  rw [ws_not_digit hws] at h
  exact Bool.noConfusion h

theorem fenceExtract_no_tick {l : List Char} (h : tick ∉ l) :
    fenceExtract l = none := by
  have hf : findFence l = none := findFence_eq_none (fun c hc he => h (he ▸ hc))
  simp only [fenceExtract, hf]

theorem matchCallAt_lc (X : List Char) :
    matchCallAt (leftClickCs ++ X) = some ("left_click", X) := rfl

theorem matchCallAt_rc (X : List Char) :
    matchCallAt (rightClickCs ++ X) = some ("right_click", X) := rfl

theorem matchCallAt_dlc (X : List Char) :
    matchCallAt (doubleLeftClickCs ++ X) = some ("double_left_click", X) := rfl

theorem matchCallAt_drag (X : List Char) :
    matchCallAt (dragCs ++ X) = some ("drag", X) := rfl

theorem matchCallAt_typ (X : List Char) :
    matchCallAt (typeCs ++ X) = some ("type", X) := rfl

/-- Construct a full `matchCall` success on `name(args)rest`. -/
theorem matchCall_build {nc : List Char} {n : String} (args rest : List Char)
    (hat : matchCallAt (nc ++ ('(' :: args ++ ')' :: rest)) =
      some (n, '(' :: args ++ ')' :: rest))
    (hargs : ')' ∉ args) :
    matchCall false (nc ++ ('(' :: args ++ ')' :: rest)) = some (n, args, rest) := by
  rw [matchCall, if_neg (by simp)]
  simp only [hat]
  rw [show (('(' :: args) ++ ')' :: rest) = '(' :: (args ++ ')' :: rest) from rfl,
    List.dropWhile_cons_of_neg (by decide)]
  show (if '(' = '(' then
      (splitParen (args ++ ')' :: rest)).map (fun p => (n, p.1, p.2)) else none) =
    some (n, args, rest)
  rw [if_pos rfl, splitParen_append rest hargs]
  rfl

theorem intStr_flat {c : Char} {n : ℤ} (h : c ∈ intStr n) :
    c ≠ ')' ∧ c ≠ tick ∧ isPyWs c = false := by
  rcases intStr_mem c h with heq | hd
  · subst heq
    exact ⟨by decide, by decide, by decide⟩
  · refine ⟨?_, digit_ne_tick hd, digit_not_ws hd⟩
    intro he
    subst he
    exact absurd hd (by decide)

theorem pairArgs_flat {c : Char} (a b : ℤ) (h : c ∈ intStr a ++ ',' :: intStr b) :
    c ≠ ')' ∧ c ≠ tick ∧ isPyWs c = false := by
  rcases List.mem_append.1 h with h1 | h2
  · exact intStr_flat h1
  · rcases List.mem_cons.1 h2 with rfl | h3
    · exact ⟨by decide, by decide, by decide⟩
    · exact intStr_flat h3

theorem quadArgs_flat {c : Char} (a b d e : ℤ)
    (h : c ∈ intStr a ++ ',' :: (intStr b ++ ',' :: (intStr d ++ ',' :: intStr e))) :
    c ≠ ')' ∧ c ≠ tick ∧ isPyWs c = false := by
  have hcomma : c = ',' → c ≠ ')' ∧ c ≠ tick ∧ isPyWs c = false := by
    rintro rfl
    exact ⟨by decide, by decide, by decide⟩
  rcases List.mem_append.1 h with h1 | h1
  · exact intStr_flat h1
  rcases List.mem_cons.1 h1 with rfl | h2
  · exact hcomma rfl
  rcases List.mem_append.1 h2 with h3 | h3
  · exact intStr_flat h3
  rcases List.mem_cons.1 h3 with rfl | h4
  · exact hcomma rfl
  rcases List.mem_append.1 h4 with h5 | h5
  · exact intStr_flat h5
  rcases List.mem_cons.1 h5 with rfl | h6
  · exact hcomma rfl
  exact intStr_flat h6

theorem reparse_clicks (n : String) (a b : ℤ)
    (hn : n = "left_click" ∨ n = "right_click" ∨ n = "double_left_click") :
    (parse_response (format_command n [PyVal.i a, PyVal.i b])).1 =
      [(n, [PyVal.i a, PyVal.i b])] := by
  have hat : matchCallAt (n.toList ++ ('(' :: (intStr a ++ ',' :: intStr b) ++ ')' :: [])) =
      some (n, '(' :: (intStr a ++ ',' :: intStr b) ++ ')' :: []) := by
    rcases hn with rfl | rfl | rfl
    · exact matchCallAt_lc _
    · exact matchCallAt_rc _
    · exact matchCallAt_dlc _
  have hfmt : format_command n [PyVal.i a, PyVal.i b] =
      n.toList ++ ('(' :: (intStr a ++ ',' :: intStr b) ++ ')' :: []) := by
    rcases hn with rfl | rfl | rfl <;>
      · rw [format_command, if_neg (by decide)]
        simp [joinSep, pyValStr, List.append_assoc]
  have hargs : ')' ∉ intStr a ++ ',' :: intStr b :=
    fun hm => (pairArgs_flat a b hm).1 rfl
  have hmc := matchCall_build (intStr a ++ ',' :: intStr b) [] hat hargs
  have hcalls := findCalls_single hmc
  have hnt : tick ∉ n.toList ++ ('(' :: (intStr a ++ ',' :: intStr b) ++ ')' :: []) := by
    intro hm
    rcases List.mem_append.1 hm with h1 | h2
    · rcases hn with rfl | rfl | rfl <;> exact absurd h1 (by decide)
    · rcases List.mem_append.1 h2 with h3 | h4
      · rcases List.mem_cons.1 h3 with heq | h5
        · exact absurd heq (by decide)
        · exact (pairArgs_flat a b h5).2.1 rfl
      · rcases List.mem_cons.1 h4 with heq | h6
        · exact absurd heq (by decide)
        · cases h6
  have hfe := fenceExtract_no_tick hnt
  have hscope : scopeOf (n.toList ++ ('(' :: (intStr a ++ ',' :: intStr b) ++ ')' :: [])) =
      n.toList ++ ('(' :: (intStr a ++ ',' :: intStr b) ++ ')' :: []) := by
    simp only [scopeOf, hfe]
  have hps : pyStrip (intStr a ++ ',' :: intStr b) = intStr a ++ ',' :: intStr b :=
    pyStrip_no_ws (fun c hc => (pairArgs_flat a b hc).2.2)
  have hpa : parse_args n (intStr a ++ ',' :: intStr b) = some [PyVal.i a, PyVal.i b] := by
    rcases hn with rfl | rfl | rfl <;>
      · simp only [parse_args]
        rw [if_neg (by decide), findInts_pair,
          if_pos (⟨by simp, by simp⟩ : _ ∧ 2 ≤ ([a, b] : List ℤ).length)]
        rfl
  rw [hfmt]
  have hview : (parse_response
      (n.toList ++ ('(' :: (intStr a ++ ',' :: intStr b) ++ ')' :: []))).1 =
      (findCalls false (scopeOf
        (n.toList ++ ('(' :: (intStr a ++ ',' :: intStr b) ++ ')' :: [])))).filterMap
        (fun m => (parse_args m.1 (pyStrip m.2)).map (fun ps => (m.1, ps))) := rfl
  rw [hview, hscope, hcalls]
  simp only [List.filterMap_cons, List.filterMap_nil]
  rw [hps, hpa]
  rfl

theorem reparse_drag (a b c d : ℤ) :
    (parse_response (format_command "drag"
        [PyVal.i a, PyVal.i b, PyVal.i c, PyVal.i d])).1 =
      [("drag", [PyVal.i a, PyVal.i b, PyVal.i c, PyVal.i d])] := by
  set args := intStr a ++ ',' :: (intStr b ++ ',' :: (intStr c ++ ',' :: intStr d))
    with hargs_def
  have hat : matchCallAt ("drag".toList ++ ('(' :: args ++ ')' :: [])) =
      some ("drag", '(' :: args ++ ')' :: []) := matchCallAt_drag _
  have hfmt : format_command "drag" [PyVal.i a, PyVal.i b, PyVal.i c, PyVal.i d] =
      "drag".toList ++ ('(' :: args ++ ')' :: []) := by
    rw [format_command, if_neg (by decide)]
    simp [joinSep, pyValStr, List.append_assoc, hargs_def]
  have hargs : ')' ∉ args :=
    fun hm => (quadArgs_flat a b c d hm).1 rfl
  have hmc := matchCall_build args [] hat hargs
  have hcalls := findCalls_single hmc
  have hnt : tick ∉ "drag".toList ++ ('(' :: args ++ ')' :: []) := by
    intro hm
    rcases List.mem_append.1 hm with h1 | h2
    · exact absurd h1 (by decide)
    · rcases List.mem_append.1 h2 with h3 | h4
      · rcases List.mem_cons.1 h3 with heq | h5
        · exact absurd heq (by decide)
        · exact (quadArgs_flat a b c d h5).2.1 rfl
      · rcases List.mem_cons.1 h4 with heq | h6
        · exact absurd heq (by decide)
        · cases h6
  have hfe := fenceExtract_no_tick hnt
  have hscope : scopeOf ("drag".toList ++ ('(' :: args ++ ')' :: [])) =
      "drag".toList ++ ('(' :: args ++ ')' :: []) := by
    simp only [scopeOf, hfe]
  have hps : pyStrip args = args :=
    pyStrip_no_ws (fun e he => (quadArgs_flat a b c d he).2.2)
  have hpa : parse_args "drag" args = some [PyVal.i a, PyVal.i b, PyVal.i c, PyVal.i d] := by
    simp only [parse_args]
    rw [if_neg (by decide), hargs_def, findInts_quad,
      if_neg (by simp), if_pos (⟨trivial, by simp⟩ : True ∧ 4 ≤ ([a, b, c, d] : List ℤ).length)]
    rfl
  rw [hfmt]
  have hview : (parse_response ("drag".toList ++ ('(' :: args ++ ')' :: []))).1 =
      (findCalls false (scopeOf ("drag".toList ++ ('(' :: args ++ ')' :: [])))).filterMap
        (fun m => (parse_args m.1 (pyStrip m.2)).map (fun ps => (m.1, ps))) := rfl
  rw [hview, hscope, hcalls]
  simp only [List.filterMap_cons, List.filterMap_nil]
  rw [hps, hpa]
  rfl

theorem reparse_type (T : List Char) (hT : T ≠ []) (hp : ')' ∉ T)
    (hfp : ¬fencePair T) :
    (parse_response (format_command "type" [PyVal.s T])).1 = [("type", [PyVal.s T])] := by
  have hfmt : format_command "type" [PyVal.s T] =
      "type".toList ++ ('(' :: (('"' :: T) ++ ['"']) ++ ')' :: []) := by
    show ('t' :: 'y' :: 'p' :: 'e' :: '(' :: '"' :: [] ++ T) ++ ('"' :: ')' :: []) =
      ('t' :: 'y' :: 'p' :: 'e' :: []) ++ (('(' :: (('"' :: T) ++ ['"'])) ++ (')' :: []))
    simp
  have hargs : ')' ∉ ('"' :: T) ++ ['"'] := by
    intro hm
    rcases List.mem_append.1 hm with h1 | h2
    · rcases List.mem_cons.1 h1 with heq | h3
      · exact absurd heq (by decide)
      · exact hp h3
    · rcases List.mem_cons.1 h2 with heq | h4
      · exact absurd heq (by decide)
      · cases h4
  have hat : matchCallAt ("type".toList ++ ('(' :: (('"' :: T) ++ ['"']) ++ ')' :: [])) =
      some ("type", '(' :: (('"' :: T) ++ ['"']) ++ ')' :: []) := matchCallAt_typ _
  have hmc := matchCall_build (('"' :: T) ++ ['"']) [] hat hargs
  have hcalls := findCalls_single hmc
  have hnfp : ¬fencePair ("type".toList ++ ('(' :: (('"' :: T) ++ ['"']) ++ ')' :: [])) := by
    intro hfp2
    have heq : "type".toList ++ ('(' :: (('"' :: T) ++ ['"']) ++ ')' :: []) =
        (['t', 'y', 'p', 'e', '(', '"'] ++ T) ++ ['"', ')'] := by
      simp
    rw [heq] at hfp2
    exact hfp (fencePair_extract (by decide) (by decide) hfp2)
  have hfe := fenceExtract_none hnfp
  have hscope : scopeOf ("type".toList ++ ('(' :: (('"' :: T) ++ ['"']) ++ ')' :: [])) =
      "type".toList ++ ('(' :: (('"' :: T) ++ ['"']) ++ ')' :: []) := by
    simp only [scopeOf, hfe]
  have hps : pyStrip (('"' :: T) ++ ['"']) = ('"' :: T) ++ ['"'] :=
    pyStrip_quoted '"' T (by decide)
  have hqw : quoteWrapped (('"' :: T) ++ ['"']) = true := by
    have hgl : (('"' :: T) ++ ['"']).getLast? = some '"' := List.getLast?_concat _
    rw [quoteWrapped, hgl, List.cons_append, List.head?_cons]
    decide
  have ht2 : ((('"' :: T) ++ ['"']).drop 1).dropLast = T := by
    rw [show (('"' :: T) ++ ['"']).drop 1 = T ++ ['"'] from rfl, List.dropLast_concat]
  have hpa : parse_args "type" (('"' :: T) ++ ['"']) = some [PyVal.s T] := by
    simp only [parse_args, if_pos rfl]
    rw [hps, if_pos hqw, ht2, if_neg hT, if_pos trivial]
  rw [hfmt]
  have hview : (parse_response
      ("type".toList ++ ('(' :: (('"' :: T) ++ ['"']) ++ ')' :: []))).1 =
      (findCalls false (scopeOf
        ("type".toList ++ ('(' :: (('"' :: T) ++ ['"']) ++ ')' :: [])))).filterMap
        (fun m => (parse_args m.1 (pyStrip m.2)).map (fun ps => (m.1, ps))) := rfl
  rw [hview, hscope, hcalls]
  simp only [List.filterMap_cons, List.filterMap_nil]
  rw [hps, hpa]
  rfl

theorem parse_args_clicks_inv {n : String} {raw : List Char} {ps : List PyVal}
    (hn : n = "left_click" ∨ n = "right_click" ∨ n = "double_left_click")
    (h : parse_args n raw = some ps) :
    ps = [PyVal.i ((findInts raw).getD 0 0), PyVal.i ((findInts raw).getD 1 0)] := by
  have hnt : ¬ n = "type" := by rcases hn with rfl | rfl | rfl <;> decide
  have hnd : ¬ (n = "drag" ∧ 4 ≤ (findInts raw).length) := by
    rintro ⟨rfl, -⟩
    rcases hn with h1 | h1 | h1 <;> exact absurd h1 (by decide)
  simp only [parse_args] at h
  rw [if_neg hnt] at h
  by_cases hlen : 2 ≤ (findInts raw).length
  · rw [if_pos ⟨hn, hlen⟩] at h
    exact (Option.some.inj h).symm
  · rw [if_neg (fun hc => hlen hc.2), if_neg hnd] at h
    exact Option.noConfusion h

theorem parse_args_drag_inv {raw : List Char} {ps : List PyVal}
    (h : parse_args "drag" raw = some ps) :
    ps = [PyVal.i ((findInts raw).getD 0 0), PyVal.i ((findInts raw).getD 1 0),
          PyVal.i ((findInts raw).getD 2 0), PyVal.i ((findInts raw).getD 3 0)] := by
  have h' : (if ("drag" : String) = "drag" ∧ 4 ≤ (findInts raw).length then
      some [PyVal.i ((findInts raw).getD 0 0), PyVal.i ((findInts raw).getD 1 0),
            PyVal.i ((findInts raw).getD 2 0), PyVal.i ((findInts raw).getD 3 0)]
    else none) = some ps := h
  by_cases hlen : 4 ≤ (findInts raw).length
  · rw [if_pos ⟨rfl, hlen⟩] at h'
    exact (Option.some.inj h').symm
  · rw [if_neg (fun hc => hlen hc.2)] at h'
    exact Option.noConfusion h'

theorem parse_args_type_inv {raw : List Char} {ps : List PyVal}
    (h : parse_args "type" raw = some ps) :
    ∃ t : List Char, ps = [PyVal.s t] ∧ t ≠ [] ∧ SubSeg t raw := by
  have h' : (if (if quoteWrapped (pyStrip raw) = true then
        ((pyStrip raw).drop 1).dropLast else pyStrip raw) = [] then none
      else some [PyVal.s (if quoteWrapped (pyStrip raw) = true then
        ((pyStrip raw).drop 1).dropLast else pyStrip raw)]) = some ps := h
  by_cases hz : (if quoteWrapped (pyStrip raw) = true then
      ((pyStrip raw).drop 1).dropLast else pyStrip raw) = []
  · rw [if_pos hz] at h'
    exact Option.noConfusion h'
  · rw [if_neg hz] at h'
    refine ⟨_, (Option.some.inj h').symm, hz, ?_⟩
    by_cases hq : quoteWrapped (pyStrip raw) = true
    · rw [if_pos hq]
      exact SubSeg.trans (dropOneLast_sub _) (pyStrip_sub raw)
    · rw [if_neg hq]
      exact pyStrip_sub raw

/-- C9: round-trip of command formatting — every `(name, params)` pair that
`parse_response` can output is recovered exactly (as the unique command) when
`format_command name params` is parsed again. -/
theorem claim_C9 (content : List Char) (name : String) (params : List PyVal)
    (h : (name, params) ∈ (parse_response content).1) :
    (parse_response (format_command name params)).1 = [(name, params)] := by
  have hview : (parse_response content).1 =
      (findCalls false (scopeOf content)).filterMap
        (fun m => (parse_args m.1 (pyStrip m.2)).map (fun ps => (m.1, ps))) := rfl
  rw [hview] at h
  obtain ⟨⟨n0, g2⟩, hmem, hmap⟩ := List.mem_filterMap.1 h
  obtain ⟨ps, hpa, heq⟩ := Option.map_eq_some'.1 hmap
  have hn1 : n0 = name := congrArg Prod.fst heq
  have hps2 : ps = params := congrArg Prod.snd heq
  subst hn1
  subst hps2
  obtain ⟨hname5, hsub, hpar⟩ :=
    findCallsF_mem (scopeOf content).length false (scopeOf content) n0 g2 hmem
  rcases hname5 with h5 | h5 | h5 | h5 | h5
  · subst h5
    rw [parse_args_clicks_inv (Or.inl rfl) hpa]
    exact reparse_clicks _ _ _ (Or.inl rfl)
  · subst h5
    rw [parse_args_clicks_inv (Or.inr (Or.inl rfl)) hpa]
    exact reparse_clicks _ _ _ (Or.inr (Or.inl rfl))
  · subst h5
    rw [parse_args_clicks_inv (Or.inr (Or.inr rfl)) hpa]
    exact reparse_clicks _ _ _ (Or.inr (Or.inr rfl))
  · subst h5
    rw [parse_args_drag_inv hpa]
    exact reparse_drag _ _ _ _
  · subst h5
    obtain ⟨t, hpst, htne, htsub⟩ := parse_args_type_inv hpa
    have htg2 : SubSeg t g2 := SubSeg.trans htsub (pyStrip_sub g2)
    have hts : SubSeg t (scopeOf content) := SubSeg.trans htg2 hsub
    have hpt : ')' ∉ t := htg2.not_mem hpar
    have hft : ¬fencePair t := fun hf => scope_nfp content (fencePair_sub hts hf)
    rw [hpst]
    exact reparse_type t htne hpt hft

theorem claim_C9_witness :
    ("left_click", [PyVal.i 12, PyVal.i 34]) ∈
        (parse_response "left_click(12, 34)".toList).1 ∧
      (parse_response (format_command "left_click" [PyVal.i 12, PyVal.i 34])).1 =
        [("left_click", [PyVal.i 12, PyVal.i 34])] :=
  ⟨by decide, claim_C9 "left_click(12, 34)".toList "left_click"
    [PyVal.i 12, PyVal.i 34] (by decide)⟩
